import Mathlib

set_option autoImplicit false

/-!
Verification of the fuzzy record-reconciliation core of `ai-data-scraper`
(`src/ai_agent.py`): the name normalizer `_normalize_name`, the name
extractor `_get_name`, the similarity scorer (`thefuzz.fuzz.token_sort_ratio`,
modelled in exact rational arithmetic), the reconciliation engine
`fuzzy_merge_records`, and the deduplicator `deduplicate_by_name`.

Python values are modelled by `Val` (null / string / integer), records by
ordered association lists mirroring Python dict insertion-order semantics.
-/

namespace AiScraper

/-- Model of a Python field value as stored in an entity record:
`None`, a string, or an integer. -/
inductive Val where
  | vnull
  | vstr (s : String)
  | vint (n : Int)
deriving DecidableEq

/-- Python truthiness of a `Val`: `None` and `""` and `0` are falsy. -/
def Val.truthy : Val → Bool
  | .vnull => false
  | .vstr s => s ≠ ""
  | .vint n => n ≠ 0

/-- Python `str(v)` for the modelled values (`str(None) = "None"`). -/
def Val.pyStr : Val → String
  | .vnull => "None"
  | .vstr s => s
  | .vint n => toString n

/-- The characters Python `str.strip()` and `\s` treat as whitespace
(ASCII fragment). -/
def pyIsSpace (c : Char) : Bool :=
  c = ' ' || c = '\t' || c = '\n' || c = '\r' || c = '\x0b' || c = '\x0c'

/-- Python `str.lower()` on the ASCII range: map `A..Z` to `a..z`. -/
def pyToLower (c : Char) : Char :=
  if 'A' ≤ c && c ≤ 'Z' then Char.ofNat (c.toNat + 32) else c

/-- The regex class `\w` (ASCII fragment): letters, digits, underscore. -/
def isWordChar (c : Char) : Bool := c.isAlpha || c.isDigit || c = '_'

/-- Alphanumeric characters (ASCII fragment), as used by the scorer's
default preprocessing. -/
def isAlnumChar (c : Char) : Bool := c.isAlpha || c.isDigit

/-- The separator class `[-–,]` of the suffix-stripping regex in
`_normalize_name`. -/
def isSepChar (c : Char) : Bool := c = '-' || c = '–' || c = ','

/-- Drop leading Python whitespace. -/
def stripLeft (l : List Char) : List Char := l.dropWhile pyIsSpace

/-- Drop trailing Python whitespace (recursively, head-first). -/
def stripRight : List Char → List Char
  | [] => []
  | c :: cs =>
    match stripRight cs with
    | [] => if pyIsSpace c then [] else [c]
    | r => c :: r

/-- Python `str.strip()` on a character list. -/
def pyStripChars (l : List Char) : List Char := stripRight (stripLeft l)

/-- Python `str.strip()`. -/
def pyStrip (s : String) : String := String.mk (pyStripChars s.data)

/-- Does the whole list match the regex `\s*[-–,]\s*\w+` (anchored at both
ends)?  The three character classes are pairwise disjoint, so the greedy
decomposition is the only one. -/
def matchesSuffix (l : List Char) : Bool :=
  match l.dropWhile pyIsSpace with
  | [] => false
  | c :: rest =>
    isSepChar c &&
      (let w := rest.dropWhile pyIsSpace
       !w.isEmpty && w.all isWordChar)

/-- `re.sub(r'\s*[-–,]\s*\w+$', '', ·)`: delete the suffix starting at the
leftmost position from which the rest of the string matches the pattern. -/
def removeSuffixOnce : List Char → List Char
  | [] => []
  | c :: cs => if matchesSuffix (c :: cs) then [] else c :: removeSuffixOnce cs

/-- `re.sub(r'\s+', ' ', ·)`: replace every maximal run of whitespace by a
single space character. -/
def collapseWs : List Char → List Char
  | [] => []
  | c :: cs =>
    let r := collapseWs cs
    if pyIsSpace c then
      match r with
      | [] => [' ']
      | d :: ds => if pyIsSpace d then ' ' :: ds else ' ' :: d :: ds
    else c :: r

/-- Lean model of `_normalize_name` (src/ai_agent.py, lines 152-160):
lower-case, strip, delete one trailing dash/comma-separated token,
collapse whitespace runs, strip again. -/
def normalize_name (name : String) : String :=
  let l1 := pyStripChars (name.data.map pyToLower)
  let l2 := removeSuffixOnce l1
  let l3 := collapseWs l2
  String.mk (pyStripChars l3)

/-- An entity record: an insertion-ordered mapping from field names to
values, as a Python dict is. -/
abbrev Record := List (String × Val)

/-- Python `record.get(k)`: value at the first matching key, if any. -/
def rget : Record → String → Option Val
  | [], _ => none
  | (k2, v) :: rest, k => if k2 = k then some v else rget rest k

/-- Python `record[k] = v`: replace the value at an existing key in place,
otherwise append the binding at the end. -/
def rset : Record → String → Val → Record
  | [], k, v => [(k, v)]
  | (k2, v2) :: rest, k, v =>
    if k2 = k then (k2, v) :: rest else (k2, v2) :: rset rest k v

/-- The name-alias priority list of `_get_name`. -/
def nameKeys : List String :=
  ["Name", "name", "Business Name", "business_name", "Title", "title"]

/-- Helper for `_get_name`: first truthy value among the listed keys,
stringified and stripped. -/
def getNameFrom (r : Record) : List String → String
  | [] => ""
  | k :: ks =>
    match rget r k with
    | some v => if v.truthy then pyStrip v.pyStr else getNameFrom r ks
    | none => getNameFrom r ks

/-- Lean model of `_get_name` (src/ai_agent.py, lines 144-149). -/
def get_name (r : Record) : String := getNameFrom r nameKeys

/-! The similarity scorer.  The repository calls `thefuzz.fuzz.token_sort_ratio`,
which (in the maintained, rapidfuzz-backed releases of `thefuzz`) processes each
string — ASCII filter, lower-case, replace non-alphanumeric characters with
blanks, trim — splits it into tokens, sorts the tokens, joins them with single
blanks, and returns the rounded normalized indel similarity
`100 * 2 * lcs / (len a + len b)` (with `100` for two empty strings).  The
model below computes that score in exact rational arithmetic, with
round-half-to-even as CPython's `round` does. -/

/-- Length of a longest common subsequence, with explicit fuel so that the
recursion is structural (and therefore kernel-reducible).  Each recursive
call removes at least one character, so fuel `|a| + |b|` never runs out and
the fuel-exhausted case is dead code. -/
def lcsLenF : Nat → List Char → List Char → Nat
  | 0, _, _ => 0
  | _ + 1, [], _ => 0
  | _ + 1, _ :: _, [] => 0
  | fuel + 1, a :: as, b :: bs =>
    if a = b then lcsLenF fuel as bs + 1
    else max (lcsLenF fuel as (b :: bs)) (lcsLenF fuel (a :: as) bs)

/-- Length of a longest common subsequence of two character lists. -/
def lcsLen (a b : List Char) : Nat := lcsLenF (a.length + b.length) a b

/-- Round `num / den` (for `den > 0`) to the nearest integer, halves to the
even neighbour, as CPython's `round` does. -/
def pyRound (num den : Nat) : Nat :=
  if 2 * (num % den) < den then num / den
  else if den < 2 * (num % den) then num / den + 1
  else if (num / den) % 2 = 0 then num / den else num / den + 1

/-- Normalized indel similarity of two character lists, scaled to `[0,100]`
and rounded; `100` when both lists are empty. -/
def ratioScore (a b : List Char) : Nat :=
  let total := a.length + b.length
  if total = 0 then 100 else pyRound (200 * lcsLen a b) total

/-- Drop non-ASCII characters (`force_ascii=True` in `thefuzz`). -/
def asciiOnly (l : List Char) : List Char := l.filter (fun c => c.toNat < 128)

/-- Scorer preprocessing: lower-case, replace every non-alphanumeric
character with a blank, and trim. -/
def defaultProcess (l : List Char) : List Char :=
  pyStripChars ((l.map pyToLower).map (fun c => if isAlnumChar c then c else ' '))

/-- Split a character list into whitespace-separated tokens (no empty
tokens). -/
def splitTokensAux : List Char → List Char → List (List Char)
  | [], acc => if acc.isEmpty then [] else [acc.reverse]
  | c :: cs, acc =>
    if pyIsSpace c then
      if acc.isEmpty then splitTokensAux cs [] else acc.reverse :: splitTokensAux cs []
    else splitTokensAux cs (c :: acc)

/-- Tokens of a character list. -/
def splitTokens (l : List Char) : List (List Char) := splitTokensAux l []

/-- Lexicographic comparison of character lists by code point, as Python
compares strings. -/
def lexLe : List Char → List Char → Bool
  | [], _ => true
  | _ :: _, [] => false
  | a :: as, b :: bs => if a = b then lexLe as bs else decide (a < b)

/-- Insert a token into a lexicographically sorted token list. -/
def insertToken (x : List Char) : List (List Char) → List (List Char)
  | [] => [x]
  | y :: ys => if lexLe x y then x :: y :: ys else y :: insertToken x ys

/-- Sort a token list lexicographically (insertion sort; agrees with any
correct sort since `lexLe` is a total order on tokens). -/
def sortTokens : List (List Char) → List (List Char)
  | [] => []
  | x :: xs => insertToken x (sortTokens xs)

/-- Join tokens with single blanks. -/
def joinTokens : List (List Char) → List Char
  | [] => []
  | [t] => t
  | t :: ts => t ++ ' ' :: joinTokens ts

/-- Token-sort preparation of one input string of the scorer. -/
def tokenSortPrep (s : String) : List Char :=
  joinTokens (sortTokens (splitTokens (defaultProcess (asciiOnly s.data))))

/-- Model of `thefuzz.fuzz.token_sort_ratio`, the similarity scorer the
engine and the deduplicator call. -/
def token_sort_ratio (s1 s2 : String) : Nat :=
  ratioScore (tokenSortPrep s1) (tokenSortPrep s2)

/-! The reconciliation engine `fuzzy_merge_records` (src/ai_agent.py,
lines 163-204) and the deduplicator `deduplicate_by_name` (lines 207-227). -/

/-- The scan of the cached output names (lines 184-192): fold left over the
names with a running counter, skipping empty names, replacing the running
best only on a strictly greater score; the initial best is `(0, -1)`. -/
def bestMatchAux (secName : String) : List String → Nat → Nat × Int → Nat × Int
  | [], _, best => best
  | n :: ns, i, best =>
    if n = "" then bestMatchAux secName ns (i + 1) best
    else
      let score := token_sort_ratio secName n
      if best.1 < score then bestMatchAux secName ns (i + 1) (score, (i : Int))
      else bestMatchAux secName ns (i + 1) best

/-- Python `not existing or not str(existing).strip()` (line 198), with
`existing = merged[best_idx].get(k)`: the slot may be filled when the
current value is absent, falsy, or blank after trimming. -/
def fillable : Option Val → Bool
  | none => true
  | some e => !e.truthy || pyStrip e.pyStr == ""

/-- Python `v is not None and str(v).strip()` (line 196): only non-null
values that are non-blank after stringify-and-trim are candidates. -/
def writable (v : Val) : Bool := !(v == Val.vnull) && !(pyStrip v.pyStr == "")

/-- The field-fill loop of lines 195-199: walk the secondary record's
bindings in order, writing each candidate value into the target record
only where the target's current value is fillable. -/
def fillRecord (target sec : Record) : Record :=
  sec.foldl
    (fun tgt kv =>
      if writable kv.2 && fillable (rget tgt kv.1) then rset tgt kv.1 kv.2 else tgt)
    target

/-- One iteration of the engine's inner loop (lines 177-202), processing a
single secondary record against the running `(merged, merged_names)` state. -/
def mergeStep (thr : Int) (st : List Record × List String) (sec : Record) :
    List Record × List String :=
  let secName := normalize_name (get_name sec)
  if secName = "" then (st.1 ++ [sec], st.2 ++ [""])
  else
    let best := bestMatchAux secName st.2 0 (0, -1)
    if thr ≤ (best.1 : Int) ∧ 0 ≤ best.2 then
      (st.1.set best.2.toNat (fillRecord (st.1.getD best.2.toNat []) sec), st.2)
    else
      (st.1 ++ [sec], st.2 ++ [secName])

/-- Lean model of `fuzzy_merge_records`: copy the primary collection (the
`dict(r)` copies are identities under value semantics), cache its normalized
names, then fold every record of every secondary collection through
`mergeStep`. -/
def fuzzy_merge_records (primary : List Record) (secondary_lists : List (List Record))
    (match_threshold : Int := 70) : List Record :=
  let init := (primary, primary.map (fun r => normalize_name (get_name r)))
  (secondary_lists.foldl (fun st sec => sec.foldl (mergeStep match_threshold) st) init).1

/-- The deduplication loop of `deduplicate_by_name`, carrying the list of
already accepted normalized names. -/
def dedupFrom (threshold : Int) (seen : List String) : List Record → List Record
  | [] => []
  | r :: rs =>
    if normalize_name (get_name r) = "" then r :: dedupFrom threshold seen rs
    else if seen.any
        (fun e => threshold ≤ (token_sort_ratio (normalize_name (get_name r)) e : Int)) then
      dedupFrom threshold seen rs
    else r :: dedupFrom threshold (seen ++ [normalize_name (get_name r)]) rs

/-- Lean model of `deduplicate_by_name` (src/ai_agent.py, lines 207-227). -/
def deduplicate_by_name (records : List Record) (threshold : Int := 85) : List Record :=
  dedupFrom threshold [] records

/-! An error-aware variant of the engine.  Python list indexing
(`merged[best_idx]`, line 197) raises on an out-of-range index; the variant
below makes that failure mode explicit with `Option`, so totality of the
engine is a theorem rather than an artifact of the embedding. -/

/-- `mergeStep` with explicit failure on an out-of-range merge index. -/
def mergeStepE (thr : Int) (st : List Record × List String) (sec : Record) :
    Option (List Record × List String) :=
  let secName := normalize_name (get_name sec)
  if secName = "" then some (st.1 ++ [sec], st.2 ++ [""])
  else
    let best := bestMatchAux secName st.2 0 (0, -1)
    if thr ≤ (best.1 : Int) ∧ 0 ≤ best.2 then
      if h : best.2.toNat < st.1.length then
        some (st.1.set best.2.toNat (fillRecord (st.1.get ⟨best.2.toNat, h⟩) sec), st.2)
      else none
    else some (st.1 ++ [sec], st.2 ++ [secName])

/-- `fuzzy_merge_records` with explicit failure propagation. -/
def fuzzy_merge_recordsE (primary : List Record) (secondary_lists : List (List Record))
    (match_threshold : Int := 70) : Option (List Record) := do
  let init := (primary, primary.map (fun r => normalize_name (get_name r)))
  let st ← secondary_lists.foldlM
    (fun st sec => sec.foldlM (mergeStepE match_threshold) st) init
  return st.1

/-! Spec-side definitions: declarative descriptions used to state the
claims, to be compared with the operational definitions above. -/

/-- Score that a cached output name contributes in the engine's scan:
empty cached names are skipped, which is equivalent to scoring them `0`
since the running best never decreases below `0`. -/
def nameScore (secName n : String) : Nat :=
  if n = "" then 0 else token_sort_ratio secName n

/-- Maximum of a list of scores (`0` for the empty list). -/
def listMax (l : List Nat) : Nat := l.foldr max 0

/-- Declarative maximum similarity between a secondary name and the cached
output names, as the spec describes step 3b of the engine. -/
def secScoreMax (secName : String) (names : List String) : Nat :=
  listMax (names.map (nameScore secName))

/-- Declarative earliest index attaining the maximum score (ties broken by
earliest index), as the spec describes step 3b of the engine. -/
def bestNameIdx (secName : String) (names : List String) : Nat :=
  names.findIdx fun n => nameScore secName n == secScoreMax secName names

/-- Upper-case ASCII letter test. -/
def isUpperAscii (c : Char) : Bool := 'A' ≤ c && c ≤ 'Z'

/-- Does the list contain two adjacent whitespace characters? -/
def hasWsRun : List Char → Bool
  | c1 :: c2 :: cs => (pyIsSpace c1 && pyIsSpace c2) || hasWsRun (c2 :: cs)
  | _ => false

/-! Helper lemmas about characters. -/

theorem char_le_iff_toNat (a b : Char) : a ≤ b ↔ a.toNat ≤ b.toNat := by
  rw [Char.le_def]
  exact Iff.rfl

theorem toNat_ofNat_valid (n : Nat) (h : n.isValidChar) : (Char.ofNat n).toNat = n := by
  simp [Char.ofNat, h, Char.ofNatAux, Char.toNat, Nat.toUInt32, UInt32.ofNat,
    UInt32.toNat, BitVec.toNat_ofNat]

theorem pyToLower_not_upper (c : Char) : isUpperAscii (pyToLower c) = false := by
  unfold pyToLower
  by_cases h : ('A' ≤ c && c ≤ 'Z') = true
  · rw [if_pos h]
    have h2 := h
    rw [Bool.and_eq_true, decide_eq_true_iff, decide_eq_true_iff,
      char_le_iff_toNat, char_le_iff_toNat] at h2
    have hA : ('A' : Char).toNat = 65 := rfl
    have hZ : ('Z' : Char).toNat = 90 := rfl
    rw [hA, hZ] at h2
    have hval : (c.toNat + 32).isValidChar := by left; omega
    have ht : (Char.ofNat (c.toNat + 32)).toNat = c.toNat + 32 :=
      toNat_ofNat_valid _ hval
    unfold isUpperAscii
    rw [Bool.and_eq_false_iff]
    right
    rw [decide_eq_false_iff_not, char_le_iff_toNat, hZ, ht]
    omega
  · rw [if_neg h]
    unfold isUpperAscii
    exact Bool.not_eq_true _ ▸ (by simpa using h)

/-! Helper lemmas about stripping, collapsing and record access. -/

theorem mem_stripLeft {c : Char} {l : List Char} (h : c ∈ stripLeft l) : c ∈ l :=
  (List.dropWhile_sublist pyIsSpace).mem h

theorem mem_stripRight {c : Char} : ∀ {l : List Char}, c ∈ stripRight l → c ∈ l := by
  intro l
  induction l with
  | nil => simp [stripRight]
  | cons d cs ih =>
    intro h
    rw [stripRight] at h
    rcases hr : stripRight cs with _ | ⟨e, es⟩
    · rw [hr] at h
      by_cases hd : pyIsSpace d = true
      · simp [hd] at h
      · simp only [hd] at h
        simp only [Bool.false_eq_true, if_false, List.mem_singleton] at h
        simp [h]
    · rw [hr] at h
      rcases List.mem_cons.mp h with h1 | h1
      · simp [h1]
      · exact List.mem_cons_of_mem d (ih (hr ▸ h1))

theorem mem_pyStripChars {c : Char} {l : List Char} (h : c ∈ pyStripChars l) : c ∈ l :=
  mem_stripLeft (mem_stripRight h)

theorem mem_removeSuffixOnce {c : Char} : ∀ {l : List Char}, c ∈ removeSuffixOnce l → c ∈ l := by
  intro l
  induction l with
  | nil => simp [removeSuffixOnce]
  | cons d cs ih =>
    intro h
    rw [removeSuffixOnce] at h
    by_cases hm : matchesSuffix (d :: cs) = true
    · simp [hm] at h
    · simp only [hm, Bool.false_eq_true, if_false] at h
      rcases List.mem_cons.mp h with h1 | h1
      · simp [h1]
      · exact List.mem_cons_of_mem d (ih h1)

theorem mem_collapseWs {c : Char} : ∀ {l : List Char}, c ∈ collapseWs l → c ∈ l ∨ c = ' ' := by
  intro l
  induction l with
  | nil => simp [collapseWs]
  | cons d cs ih =>
    intro h
    rw [collapseWs] at h
    by_cases hd : pyIsSpace d = true
    · simp only [hd, if_true] at h
      rcases hr : collapseWs cs with _ | ⟨e, es⟩
      · rw [hr] at h
        simp only [List.mem_singleton] at h
        exact Or.inr h
      · rw [hr] at h
        by_cases he : pyIsSpace e = true
        · simp only [he, if_true] at h
          rcases List.mem_cons.mp h with h1 | h1
          · exact Or.inr h1
          · rcases ih (hr ▸ List.mem_cons_of_mem e h1) with h2 | h2
            · exact Or.inl (List.mem_cons_of_mem d h2)
            · exact Or.inr h2
        · simp only [he, Bool.false_eq_true, if_false] at h
          rcases List.mem_cons.mp h with h1 | h1
          · exact Or.inr h1
          · rcases ih (hr ▸ h1) with h2 | h2
            · exact Or.inl (List.mem_cons_of_mem d h2)
            · exact Or.inr h2
    · simp only [hd, Bool.false_eq_true, if_false] at h
      rcases List.mem_cons.mp h with h1 | h1
      · exact Or.inl (by simp [h1])
      · rcases ih h1 with h2 | h2
        · exact Or.inl (List.mem_cons_of_mem d h2)
        · exact Or.inr h2

theorem stripLeft_idem (l : List Char) : stripLeft (stripLeft l) = stripLeft l := by
  induction l with
  | nil => rfl
  | cons c cs ih =>
    by_cases h : pyIsSpace c = true
    · simp only [stripLeft, List.dropWhile_cons, h, if_true]
      exact ih
    · simp only [stripLeft, List.dropWhile_cons, h, Bool.false_eq_true, if_false]

theorem stripRight_idem (l : List Char) : stripRight (stripRight l) = stripRight l := by
  induction l with
  | nil => rfl
  | cons c cs ih =>
    rcases hr : stripRight cs with _ | ⟨e, es⟩
    · by_cases h : pyIsSpace c = true
      · have hs : stripRight (c :: cs) = [] := by rw [stripRight, hr]; simp [h]
        rw [hs]
        rfl
      · have hs : stripRight (c :: cs) = [c] := by rw [stripRight, hr]; simp [h]
        rw [hs, stripRight]
        simp [stripRight, h]
    · have hs : stripRight (c :: cs) = c :: e :: es := by rw [stripRight, hr]
      have ih2 : stripRight (e :: es) = e :: es := hr ▸ ih
      rw [hs, stripRight, ih2]

theorem stripLeft_length_le (l : List Char) : (stripLeft l).length ≤ l.length :=
  (List.dropWhile_sublist pyIsSpace).length_le

theorem stripLeft_fix_head (c : Char) (cs : List Char)
    (h : stripLeft (c :: cs) = c :: cs) : pyIsSpace c = false := by
  by_cases hc : pyIsSpace c = true
  · exfalso
    have h2 : stripLeft (c :: cs) = stripLeft cs := by
      simp [stripLeft, List.dropWhile_cons, hc]
    have h3 := stripLeft_length_le cs
    rw [h2] at h
    have := congrArg List.length h
    simp at this
    omega
  · simpa using hc

theorem stripLeft_stripRight_fix (l : List Char) (h : stripLeft l = l) :
    stripLeft (stripRight l) = stripRight l := by
  rcases l with _ | ⟨c, cs⟩
  · rfl
  · have hc : pyIsSpace c = false := stripLeft_fix_head c cs h
    rw [stripRight]
    rcases stripRight cs with _ | ⟨e, es⟩
    · simp [hc, stripLeft, List.dropWhile_cons]
    · simp [stripLeft, List.dropWhile_cons, hc]

theorem pyStripChars_idem (l : List Char) : pyStripChars (pyStripChars l) = pyStripChars l := by
  unfold pyStripChars
  rw [stripLeft_stripRight_fix (stripLeft l) (stripLeft_idem l), stripRight_idem]

theorem hasWsRun_tail (c : Char) (l : List Char) (h : hasWsRun (c :: l) = false) :
    hasWsRun l = false := by
  rcases l with _ | ⟨d, ds⟩
  · rfl
  · rw [hasWsRun, Bool.or_eq_false_iff] at h
    exact h.2

theorem hasWsRun_cons_pair (c d : Char) (ds : List Char)
    (h : hasWsRun (c :: d :: ds) = false) : (pyIsSpace c && pyIsSpace d) = false := by
  rw [hasWsRun, Bool.or_eq_false_iff] at h
  exact h.1

theorem stripRight_head_eq (x : Char) (l : List Char) :
    stripRight (x :: l) = [] ∨ ∃ t, stripRight (x :: l) = x :: t := by
  rw [stripRight]
  rcases stripRight l with _ | ⟨e, es⟩
  · by_cases h : pyIsSpace x = true
    · simp [h]
    · simp [h]
  · exact Or.inr ⟨e :: es, rfl⟩

theorem hasWsRun_stripRight (l : List Char) (h : hasWsRun l = false) :
    hasWsRun (stripRight l) = false := by
  induction l with
  | nil => rfl
  | cons c cs ih =>
    rw [stripRight]
    rcases hr : stripRight cs with _ | ⟨e, es⟩
    · by_cases hc : pyIsSpace c = true
      · simp [hc, hasWsRun]
      · simp [hc, hasWsRun]
    · have hcs : hasWsRun (stripRight cs) = false := ih (hasWsRun_tail c cs h)
      rw [hr] at hcs
      rcases cs with _ | ⟨d, ds⟩
      · simp [stripRight] at hr
      · rcases stripRight_head_eq d ds with h1 | ⟨t, h1⟩
        · rw [h1] at hr
          exact absurd hr (by simp)
        · rw [h1] at hr
          have hde : d = e := (List.cons.injEq _ _ _ _ ▸ hr).1
          rw [hasWsRun, Bool.or_eq_false_iff]
          refine ⟨?_, hcs⟩
          have := hasWsRun_cons_pair c d ds h
          rw [hde] at this
          exact this

theorem hasWsRun_stripLeft (l : List Char) (h : hasWsRun l = false) :
    hasWsRun (stripLeft l) = false := by
  induction l with
  | nil => rfl
  | cons c cs ih =>
    by_cases hc : pyIsSpace c = true
    · simp only [stripLeft, List.dropWhile_cons, hc, if_true]
      exact ih (hasWsRun_tail c cs h)
    · simp only [stripLeft, List.dropWhile_cons, hc, Bool.false_eq_true, if_false]
      exact h

theorem hasWsRun_collapseWs (l : List Char) : hasWsRun (collapseWs l) = false := by
  induction l with
  | nil => rfl
  | cons c cs ih =>
    rw [collapseWs]
    by_cases hc : pyIsSpace c = true
    · simp only [hc, if_true]
      rcases hr : collapseWs cs with _ | ⟨e, es⟩
      · simp [hasWsRun]
      · by_cases he : pyIsSpace e = true
        · simp only [he, if_true]
          rcases es with _ | ⟨f, fs⟩
          · simp [hasWsRun]
          · rw [hasWsRun, Bool.or_eq_false_iff]
            have h1 : hasWsRun (e :: f :: fs) = false := hr ▸ ih
            have h2 := hasWsRun_cons_pair e f fs h1
            rw [he] at h2
            simp only [Bool.true_and] at h2
            constructor
            · rw [h2, Bool.and_false]
            · exact hasWsRun_tail e (f :: fs) h1
        · simp only [he, Bool.false_eq_true, if_false]
          rw [hasWsRun, Bool.or_eq_false_iff]
          constructor
          · simp [he]
          · exact hr ▸ ih
    · simp only [hc, Bool.false_eq_true, if_false]
      rcases hr : collapseWs cs with _ | ⟨e, es⟩
      · simp [hasWsRun]
      · rw [hasWsRun, Bool.or_eq_false_iff]
        constructor
        · simp [hc]
        · exact hr ▸ ih

theorem rget_rset_self (r : Record) (k : String) (v : Val) :
    rget (rset r k v) k = some v := by
  induction r with
  | nil => simp [rset, rget]
  | cons kv rest ih =>
    by_cases h : kv.1 = k
    · simp [rset, rget, h]
    · simp [rset, rget, h, ih]

theorem rget_rset_ne (r : Record) (k k2 : String) (v : Val) (h : k2 ≠ k) :
    rget (rset r k2 v) k = rget r k := by
  induction r with
  | nil => simp [rset, rget, h]
  | cons kv rest ih =>
    by_cases h2 : kv.1 = k2
    · simp [rset, rget, h2, h]
    · by_cases h3 : kv.1 = k
      · simp [rset, rget, h2, h3, Ne.symm h]
      · simp [rset, rget, h2, h3, ih]

theorem fillRecord_keep (sec : Record) : ∀ (tgt : Record) (k : String) (v : Val),
    rget tgt k = some v → v.truthy = true → pyStrip v.pyStr ≠ "" →
    rget (fillRecord tgt sec) k = some v := by
  induction sec with
  | nil =>
    intro tgt k v h _ _
    simpa [fillRecord] using h
  | cons kv rest ih =>
    intro tgt k v h ht hb
    have hstep : fillRecord tgt (kv :: rest) =
        fillRecord (if writable kv.2 && fillable (rget tgt kv.1) then
          rset tgt kv.1 kv.2 else tgt) rest := by
      simp [fillRecord]
    rw [hstep]
    by_cases hk : kv.1 = k
    · have hfill : fillable (rget tgt kv.1) = false := by
        rw [hk, h]
        simp [fillable, ht]
        exact hb
      rw [hfill, Bool.and_false, if_neg (by simp)]
      exact ih tgt k v h ht hb
    · by_cases hc : (writable kv.2 && fillable (rget tgt kv.1)) = true
      · rw [if_pos hc]
        exact ih _ k v (by rw [rget_rset_ne tgt k kv.1 kv.2 hk]; exact h) ht hb
      · rw [if_neg hc]
        exact ih tgt k v h ht hb

theorem fillRecord_not_mem (sec : Record) : ∀ (tgt : Record) (k : String),
    k ∉ sec.map Prod.fst → rget (fillRecord tgt sec) k = rget tgt k := by
  induction sec with
  | nil =>
    intro tgt k _
    simp [fillRecord]
  | cons kv rest ih =>
    intro tgt k hk
    have hk1 : kv.1 ≠ k := by
      intro e
      exact hk (by simp [e])
    have hk2 : k ∉ rest.map Prod.fst := by
      intro e
      exact hk (by simp [e])
    have hstep : fillRecord tgt (kv :: rest) =
        fillRecord (if writable kv.2 && fillable (rget tgt kv.1) then
          rset tgt kv.1 kv.2 else tgt) rest := by
      simp [fillRecord]
    rw [hstep]
    by_cases hc : (writable kv.2 && fillable (rget tgt kv.1)) = true
    · rw [if_pos hc, ih _ k hk2, rget_rset_ne tgt k kv.1 kv.2 hk1]
    · rw [if_neg hc, ih _ k hk2]

theorem lcsLenF_irrel : ∀ (f1 f2 : Nat) (a b : List Char), a.length + b.length ≤ f1 →
    a.length + b.length ≤ f2 → lcsLenF f1 a b = lcsLenF f2 a b := by
  intro f1
  induction f1 with
  | zero =>
    intro f2 a b h1 _
    have ha : a = [] := by
      cases a
      · rfl
      · simp at h1
    have hb : b = [] := by
      cases b
      · rfl
      · rw [ha] at h1
        simp at h1
    rw [ha, hb]
    cases f2 <;> rfl
  | succ f ih =>
    intro f2 a b h1 h2
    cases a with
    | nil => cases f2 <;> rfl
    | cons x xs =>
      cases b with
      | nil =>
        cases f2 with
        | zero =>
          simp at h2
        | succ g => rfl
      | cons y ys =>
        cases f2 with
        | zero =>
          simp at h2
        | succ g =>
          simp only [List.length_cons] at h1 h2
          show (if x = y then lcsLenF f xs ys + 1
              else max (lcsLenF f xs (y :: ys)) (lcsLenF f (x :: xs) ys)) =
            (if x = y then lcsLenF g xs ys + 1
              else max (lcsLenF g xs (y :: ys)) (lcsLenF g (x :: xs) ys))
          by_cases hxy : x = y
          · rw [if_pos hxy, if_pos hxy,
              ih g xs ys (by omega) (by omega)]
          · rw [if_neg hxy, if_neg hxy,
              ih g xs (y :: ys) (by simp; omega) (by simp; omega),
              ih g (x :: xs) ys (by simp; omega) (by simp; omega)]

theorem lcsLen_nil_left (b : List Char) : lcsLen [] b = 0 := by
  cases b <;> rfl

theorem lcsLen_nil_right (a : List Char) : lcsLen a [] = 0 := by
  cases a <;> rfl

theorem lcsLen_cons_cons (x y : Char) (xs ys : List Char) :
    lcsLen (x :: xs) (y :: ys) =
      if x = y then lcsLen xs ys + 1
      else max (lcsLen xs (y :: ys)) (lcsLen (x :: xs) ys) := by
  have hstep : lcsLen (x :: xs) (y :: ys) =
      if x = y then lcsLenF (xs.length + ys.length + 1) xs ys + 1
      else max (lcsLenF (xs.length + ys.length + 1) xs (y :: ys))
        (lcsLenF (xs.length + ys.length + 1) (x :: xs) ys) := by
    unfold lcsLen
    rw [show (x :: xs).length + (y :: ys).length = (xs.length + ys.length + 1) + 1 by
      simp; omega]
    rfl
  rw [hstep]
  unfold lcsLen
  rw [lcsLenF_irrel (xs.length + ys.length + 1) (xs.length + ys.length) xs ys
      (by omega) (by omega),
    lcsLenF_irrel (xs.length + ys.length + 1) (xs.length + (y :: ys).length) xs (y :: ys)
      (by simp only [List.length_cons]; omega) (by simp only [List.length_cons]; omega),
    lcsLenF_irrel (xs.length + ys.length + 1) ((x :: xs).length + ys.length) (x :: xs) ys
      (by simp only [List.length_cons]; omega) (by simp only [List.length_cons]; omega)]

theorem lcsLen_comm (a : List Char) : ∀ (b : List Char), lcsLen a b = lcsLen b a := by
  induction a with
  | nil =>
    intro b
    rw [lcsLen_nil_left, lcsLen_nil_right]
  | cons x xs ih =>
    intro b
    induction b with
    | nil => rw [lcsLen_nil_left, lcsLen_nil_right]
    | cons y ys ihb =>
      rw [lcsLen_cons_cons, lcsLen_cons_cons]
      by_cases hxy : x = y
      · rw [if_pos hxy, if_pos hxy.symm, ih ys]
      · rw [if_neg hxy, if_neg (fun e => hxy e.symm), ih (y :: ys), ihb, Nat.max_comm]

theorem lcsLen_le_left (a : List Char) : ∀ (b : List Char), lcsLen a b ≤ a.length := by
  induction a with
  | nil =>
    intro b
    rw [lcsLen_nil_left]
    simp
  | cons x xs ih =>
    intro b
    induction b with
    | nil =>
      rw [lcsLen_nil_right]
      simp
    | cons y ys ihb =>
      rw [lcsLen_cons_cons]
      by_cases hxy : x = y
      · rw [if_pos hxy]
        have := ih ys
        simp only [List.length_cons]
        omega
      · rw [if_neg hxy]
        apply Nat.max_le.mpr
        refine ⟨?_, ihb⟩
        have := ih (y :: ys)
        simp only [List.length_cons]
        omega

theorem lcsLen_le_right (a b : List Char) : lcsLen a b ≤ b.length := by
  rw [lcsLen_comm]
  exact lcsLen_le_left b a

theorem lcsLen_self (a : List Char) : lcsLen a a = a.length := by
  induction a with
  | nil => rw [lcsLen_nil_left]; rfl
  | cons x xs ih =>
    rw [lcsLen_cons_cons, if_pos rfl, ih]
    rfl

theorem pyRound_le_100 (num den : Nat) (hd : 0 < den) (h : num ≤ 100 * den) :
    pyRound num den ≤ 100 := by
  have h1 : den * (num / den) + num % den = num := Nat.div_add_mod num den
  have hr : num % den < den := Nat.mod_lt _ hd
  have hq : num / den ≤ 100 := by
    have h2 : num / den ≤ 100 * den / den := Nat.div_le_div_right h
    rwa [Nat.mul_div_cancel _ hd] at h2
  rcases Nat.lt_or_ge (num / den) 100 with hq99 | hq100
  · unfold pyRound
    split_ifs <;> omega
  · have hq' : num / den = 100 := Nat.le_antisymm hq hq100
    have hr0 : num % den = 0 := by
      rw [hq'] at h1
      omega
    unfold pyRound
    rw [hr0]
    simp [hd, hq']

theorem pyRound_hundred (den : Nat) (hd : 0 < den) : pyRound (100 * den) den = 100 := by
  unfold pyRound
  rw [Nat.mul_div_cancel _ hd, Nat.mul_mod_left]
  simp [hd]

theorem ratioScore_comm (a b : List Char) : ratioScore a b = ratioScore b a := by
  unfold ratioScore
  rw [lcsLen_comm, Nat.add_comm a.length b.length]

theorem ratioScore_le_100 (a b : List Char) : ratioScore a b ≤ 100 := by
  unfold ratioScore
  by_cases h : a.length + b.length = 0
  · simp [h]
  · simp only [h, if_false]
    apply pyRound_le_100 _ _ (Nat.pos_of_ne_zero h)
    have h1 := lcsLen_le_left a b
    have h2 := lcsLen_le_right a b
    omega

theorem ratioScore_self (a : List Char) : ratioScore a a = 100 := by
  unfold ratioScore
  by_cases h : a.length + a.length = 0
  · simp [h]
  · simp only [h, if_false]
    have h1 : 200 * lcsLen a a = 100 * (a.length + a.length) := by
      rw [lcsLen_self]
      ring
    rw [h1]
    exact pyRound_hundred _ (Nat.pos_of_ne_zero h)

/-- C5 — Symmetry of the similarity scorer: the token-sort ratio the engine
and the deduplicator use satisfies `similarity(a,b) = similarity(b,a)` for
all strings `a`, `b`. -/
theorem scorer_symmetric (a b : String) : token_sort_ratio a b = token_sort_ratio b a := by
  unfold token_sort_ratio
  exact ratioScore_comm _ _

/-- C6 — Scorer range and identity: the similarity score always lies in
`[0, 100]` (the codomain is `Nat`, so `0 ≤` holds by typing), and any string
compared with itself — in particular any normalized name, including the
empty string — scores exactly `100`. -/
theorem scorer_range_and_identity (a b : String) :
    token_sort_ratio a b ≤ 100 ∧ token_sort_ratio a a = 100 := by
  constructor
  · exact ratioScore_le_100 _ _
  · unfold token_sort_ratio
    exact ratioScore_self _

/-- C8 — Normalizer determinism and totality: `_normalize_name` is a total
function (it is a Lean `def`, so equal inputs give equal outputs and no
input fails); the empty name normalizes to the empty string; the output
carries no upper-case ASCII letter, no leading or trailing whitespace
(stripping it again is the identity), and no two adjacent whitespace
characters; and a single trailing dash-separated token is removed, as in
the concrete instance. -/
theorem normalizer_props (s : String) :
    normalize_name "" = "" ∧
    normalize_name "  Zen   SPA - Hyderabad  " = "zen spa" ∧
    (∀ c, c ∈ (normalize_name s).data → isUpperAscii c = false) ∧
    pyStripChars (normalize_name s).data = (normalize_name s).data ∧
    hasWsRun (normalize_name s).data = false := by
  have hdata : (normalize_name s).data =
      pyStripChars (collapseWs (removeSuffixOnce (pyStripChars (s.data.map pyToLower)))) :=
    rfl
  refine ⟨by decide, by decide, ?_, ?_, ?_⟩
  · intro c hc
    rw [hdata] at hc
    rcases mem_collapseWs (mem_pyStripChars hc) with h1 | h1
    · have h2 := mem_pyStripChars (mem_removeSuffixOnce h1)
      rcases List.mem_map.mp h2 with ⟨d, _, hd⟩
      rw [← hd]
      exact pyToLower_not_upper d
    · rw [h1]
      decide
  · rw [hdata]
    exact pyStripChars_idem _
  · rw [hdata]
    exact hasWsRun_stripRight _ (hasWsRun_stripLeft _ (hasWsRun_collapseWs _))

/-- Witness for C8 at a concrete input: the letter `z` survives in
`normalize_name "Zen SPA"` and is not upper-case. -/
theorem normalizer_props_witness : isUpperAscii 'z' = false :=
  (normalizer_props "Zen SPA").2.2.1 'z' (by decide)

/-- The dedup loop is idempotent from any starting set of seen names:
a record accepted in the first pass is compared, in the second pass,
against exactly the names it already beat in the first pass. -/
theorem dedupFrom_idem (thr : Int) (seen : List String) (rs : List Record) :
    dedupFrom thr seen (dedupFrom thr seen rs) = dedupFrom thr seen rs := by
  induction rs generalizing seen with
  | nil => rfl
  | cons r rs ih =>
    rw [dedupFrom]
    split_ifs with hn hd
    · rw [dedupFrom, if_pos hn, ih seen]
    · exact ih seen
    · rw [dedupFrom]
      split_ifs
      rw [ih (seen ++ [normalize_name (get_name r)])]

/-- C4 — Idempotence of deduplication: re-running `deduplicate_by_name`
with the same threshold on its own output returns the output unchanged. -/
theorem dedup_idempotent (X : List Record) (threshold : Int) :
    deduplicate_by_name (deduplicate_by_name X threshold) threshold =
      deduplicate_by_name X threshold :=
  dedupFrom_idem threshold [] X

theorem listMax_cons (x : Nat) (l : List Nat) : listMax (x :: l) = max x (listMax l) := rfl

theorem listMax_mem (l : List Nat) (h : listMax l ≠ 0) : listMax l ∈ l := by
  induction l with
  | nil => exact absurd rfl h
  | cons x xs ih =>
    rw [listMax_cons] at h ⊢
    by_cases hx : listMax xs ≤ x
    · rw [Nat.max_eq_left hx]
      exact List.mem_cons_self x xs
    · rw [Nat.max_eq_right (Nat.le_of_not_le hx)] at h ⊢
      exact List.mem_cons_of_mem x (ih h)

/-- The engine's left-to-right scan computes exactly the maximum score over
the cached names (empty names scoring `0`) and, when some name beats the
running best, the earliest index attaining that maximum. -/
theorem bestMatchAux_spec (secName : String) : ∀ (ns : List String) (i b : Nat) (j : Int),
    bestMatchAux secName ns i (b, j) =
      if listMax (ns.map (nameScore secName)) ≤ b then (b, j)
      else (listMax (ns.map (nameScore secName)),
        (i : Int) +
          (ns.findIdx fun n => nameScore secName n == listMax (ns.map (nameScore secName)))) := by
  intro ns
  induction ns with
  | nil =>
    intro i b j
    simp [bestMatchAux, listMax]
  | cons n ns ih =>
    intro i b j
    have hM : listMax (List.map (nameScore secName) (n :: ns)) =
        max (nameScore secName n) (listMax (List.map (nameScore secName) ns)) := rfl
    by_cases hn : n = ""
    · have hL : bestMatchAux secName (n :: ns) i (b, j) =
          bestMatchAux secName ns (i + 1) (b, j) := by
        rw [bestMatchAux, if_pos hn]
      have hs0 : nameScore secName n = 0 := by simp [nameScore, hn]
      rw [hL, ih, hM, hs0, Nat.zero_max]
      by_cases hMb : listMax (List.map (nameScore secName) ns) ≤ b
      · rw [if_pos hMb, if_pos hMb]
      · rw [if_neg hMb, if_neg hMb]
        have hp : (nameScore secName n ==
            listMax (List.map (nameScore secName) ns)) = false := by
          rw [hs0]
          simp only [beq_eq_false_iff_ne, ne_eq]
          omega
        rw [List.findIdx_cons, hp]
        simp only [cond_false]
        congr 1
        push_cast
        ring
    · have hs0 : nameScore secName n = token_sort_ratio secName n := by
        simp [nameScore, hn]
      by_cases hlt : b < token_sort_ratio secName n
      · have hL : bestMatchAux secName (n :: ns) i (b, j) =
            bestMatchAux secName ns (i + 1) (token_sort_ratio secName n, (i : Int)) := by
          rw [bestMatchAux, if_neg hn]
          simp only [hlt, if_true]
        rw [hL, ih, hM, hs0]
        have hnotle : ¬ max (token_sort_ratio secName n)
            (listMax (List.map (nameScore secName) ns)) ≤ b := by
          have := Nat.le_max_left (token_sort_ratio secName n)
            (listMax (List.map (nameScore secName) ns))
          omega
        rw [if_neg hnotle]
        by_cases hM' : listMax (List.map (nameScore secName) ns) ≤ token_sort_ratio secName n
        · rw [if_pos hM', Nat.max_eq_left hM']
          have hp : (nameScore secName n == token_sort_ratio secName n) = true := by
            rw [hs0]
            exact beq_self_eq_true _
          rw [List.findIdx_cons, hp]
          simp
        · rw [if_neg hM', Nat.max_eq_right (Nat.le_of_not_le hM')]
          have hp : (nameScore secName n ==
              listMax (List.map (nameScore secName) ns)) = false := by
            rw [hs0]
            simp only [beq_eq_false_iff_ne, ne_eq]
            omega
          rw [List.findIdx_cons, hp]
          simp only [cond_false]
          congr 1
          push_cast
          ring
      · have hL : bestMatchAux secName (n :: ns) i (b, j) =
            bestMatchAux secName ns (i + 1) (b, j) := by
          rw [bestMatchAux, if_neg hn]
          simp only [hlt, if_false]
        rw [hL, ih, hM, hs0]
        by_cases hMb : listMax (List.map (nameScore secName) ns) ≤ b
        · have hmax : max (token_sort_ratio secName n)
              (listMax (List.map (nameScore secName) ns)) ≤ b := by
            apply Nat.max_le.mpr
            omega
          rw [if_pos hMb, if_pos hmax]
        · have hmax : ¬ max (token_sort_ratio secName n)
              (listMax (List.map (nameScore secName) ns)) ≤ b := by
            have := Nat.le_max_right (token_sort_ratio secName n)
              (listMax (List.map (nameScore secName) ns))
            omega
          rw [if_neg hMb, if_neg hmax,
            Nat.max_eq_right (by omega : token_sort_ratio secName n ≤
              listMax (List.map (nameScore secName) ns))]
          have hp : (nameScore secName n ==
              listMax (List.map (nameScore secName) ns)) = false := by
            rw [hs0]
            simp only [beq_eq_false_iff_ne, ne_eq]
            omega
          rw [List.findIdx_cons, hp]
          simp only [cond_false]
          congr 1
          push_cast
          ring

theorem bestMatch_eq (secName : String) (ns : List String) :
    bestMatchAux secName ns 0 (0, -1) =
      if secScoreMax secName ns = 0 then (0, -1)
      else (secScoreMax secName ns, (bestNameIdx secName ns : Int)) := by
  rw [bestMatchAux_spec]
  unfold secScoreMax bestNameIdx
  by_cases hM : listMax (ns.map (nameScore secName)) = 0
  · rw [if_pos (by omega), if_pos hM]
  · rw [if_neg (by omega), if_neg hM]
    norm_num
    rfl

theorem bestNameIdx_lt (secName : String) (ns : List String)
    (h : secScoreMax secName ns ≠ 0) : bestNameIdx secName ns < ns.length := by
  unfold bestNameIdx
  apply List.findIdx_lt_length.mpr
  have hmem : secScoreMax secName ns ∈ ns.map (nameScore secName) := listMax_mem _ h
  rcases List.mem_map.mp hmem with ⟨n, hn, he⟩
  exact ⟨n, hn, by rw [he]; exact beq_self_eq_true _⟩

theorem nameScore_at_bestIdx (secName : String) (ns : List String)
    (h : secScoreMax secName ns ≠ 0) :
    nameScore secName (ns.getD (bestNameIdx secName ns) "") = secScoreMax secName ns := by
  have hlt : bestNameIdx secName ns < ns.length := bestNameIdx_lt secName ns h
  have hg : ns.getD (bestNameIdx secName ns) "" = ns[bestNameIdx secName ns] := by
    rw [List.getD_eq_getElem?_getD, List.getElem?_eq_getElem hlt]
    rfl
  rw [hg]
  have hw : List.findIdx (fun n => nameScore secName n == secScoreMax secName ns) ns <
      ns.length := by
    unfold bestNameIdx at hlt
    exact hlt
  have := @List.findIdx_getElem _ (fun n => nameScore secName n == secScoreMax secName ns)
    ns hw
  exact eq_of_beq this

/-- Unfolding of `mergeStep` for a secondary record with a non-empty
normalized name, in terms of the declarative maximum and earliest argmax:
the record is merged at the earliest maximal index precisely when the
maximum clears the threshold and is positive; otherwise the record and its
normalized name are appended. -/
theorem mergeStep_eq_of_ne (thr : Int) (st : List Record × List String) (sec : Record)
    (h : normalize_name (get_name sec) ≠ "") :
    mergeStep thr st sec =
      if thr ≤ (secScoreMax (normalize_name (get_name sec)) st.2 : Int)
          ∧ 0 < secScoreMax (normalize_name (get_name sec)) st.2 then
        (st.1.set (bestNameIdx (normalize_name (get_name sec)) st.2)
          (fillRecord (st.1.getD (bestNameIdx (normalize_name (get_name sec)) st.2) []) sec),
         st.2)
      else (st.1 ++ [sec], st.2 ++ [normalize_name (get_name sec)]) := by
  rw [mergeStep]
  simp only [if_neg h]
  rw [bestMatch_eq]
  by_cases hM : secScoreMax (normalize_name (get_name sec)) st.2 = 0
  · rw [if_pos hM]
    dsimp only
    rw [if_neg (by omega), if_neg (by omega)]
  · rw [if_neg hM]
    dsimp only
    by_cases hthr : thr ≤ (secScoreMax (normalize_name (get_name sec)) st.2 : Int)
    · rw [if_pos ⟨hthr, Int.natCast_nonneg _⟩, if_pos ⟨hthr, by omega⟩]
      simp
    · rw [if_neg (fun hc => hthr hc.1), if_neg (fun hc => hthr hc.1)]

/-- Unfolding of `mergeStep` for an unmatchable secondary record (empty
normalized name): appended verbatim with an empty cached name. -/
theorem mergeStep_eq_of_empty (thr : Int) (st : List Record × List String) (sec : Record)
    (h : normalize_name (get_name sec) = "") :
    mergeStep thr st sec = (st.1 ++ [sec], st.2 ++ [""]) := by
  rw [mergeStep]
  simp [h]

/-- C3 (amended) — Best-match selection and append semantics: the engine is
the fold of `mergeStep` over the secondary records, and for a secondary
record with a non-empty normalized name `mergeStep` merges it at the
earliest index attaining the maximum score over the cached names (only a
strictly greater score replaces the running best) when that maximum clears
`match_threshold` **and is positive** (so that an index was recorded);
otherwise it appends a copy of the record and appends its normalized name
to the cache.  The positivity condition is the amendment: with a
non-positive threshold a maximum of `0` clears the threshold but the
record is still appended, because no index was ever recorded. -/
theorem best_match_selection (thr : Int) (merged : List Record) (names : List String)
    (sec : Record) (h : normalize_name (get_name sec) ≠ "") :
    (∀ (primary : List Record) (secondary_lists : List (List Record)),
      fuzzy_merge_records primary secondary_lists thr =
        (secondary_lists.foldl (fun st l => l.foldl (mergeStep thr) st)
          (primary, primary.map fun r => normalize_name (get_name r))).1) ∧
    mergeStep thr (merged, names) sec =
      (if thr ≤ (secScoreMax (normalize_name (get_name sec)) names : Int)
          ∧ 0 < secScoreMax (normalize_name (get_name sec)) names then
        (merged.set (bestNameIdx (normalize_name (get_name sec)) names)
          (fillRecord (merged.getD (bestNameIdx (normalize_name (get_name sec)) names) []) sec),
         names)
      else (merged ++ [sec], names ++ [normalize_name (get_name sec)])) :=
  ⟨fun _ _ => rfl, mergeStep_eq_of_ne thr (merged, names) sec h⟩

/-- Witness for C3 at a concrete input: one cached name `"zen spa"`, one
secondary record whose normalized name scores `100 ≥ 70`, merged in place. -/
theorem best_match_selection_witness :
    mergeStep 70 ([[("Name", Val.vstr "Zen Spa")]], ["zen spa"])
        [("Name", Val.vstr "zen spa"), ("Rating", Val.vstr "4.6")] =
      ([[("Name", Val.vstr "Zen Spa"), ("Rating", Val.vstr "4.6")]], ["zen spa"]) := by
  rw [(best_match_selection 70 [[("Name", Val.vstr "Zen Spa")]] ["zen spa"]
      [("Name", Val.vstr "zen spa"), ("Rating", Val.vstr "4.6")] (by decide)).2]
  decide

/-- C3 counterexample (claim as stated): with `match_threshold = 0` and one
non-empty cached name scoring `0`, the maximum score `0` does satisfy
`maximum ≥ match_threshold`, yet the record is appended (output grows to
two records), not merged — `best_idx` stays `-1` because only strictly
positive scores are ever recorded. -/
theorem best_match_counterexample :
    (0 : Int) ≤ (secScoreMax (normalize_name (get_name [("Name", Val.vstr "abc")])) ["xyz"] : Int)
    ∧ ("xyz" : String) ≠ ""
    ∧ fuzzy_merge_records [[("Name", Val.vstr "xyz")]] [[[("Name", Val.vstr "abc")]]] 0 =
        [[("Name", Val.vstr "xyz")], [("Name", Val.vstr "abc")]] :=
  ⟨by decide, by decide, by decide⟩

/-- C7 — Unmatchable isolation: a record whose extracted name normalizes to
the empty string is appended verbatim by the engine (with an empty cached
name) and always kept by the deduplicator; and no secondary record is ever
merged into an output position whose cached name is empty. -/
theorem unmatchable_isolation (thr : Int) (merged : List Record) (names : List String)
    (r : Record) (h : normalize_name (get_name r) = "") (seen : List String)
    (rs : List Record) :
    mergeStep thr (merged, names) r = (merged ++ [r], names ++ [""]) ∧
    dedupFrom thr seen (r :: rs) = r :: dedupFrom thr seen rs ∧
    ∀ (sec : Record) (i : Nat), i < merged.length → names.getD i "" = "" →
      (mergeStep thr (merged, names) sec).1.getD i [] = merged.getD i [] := by
  refine ⟨mergeStep_eq_of_empty thr (merged, names) r h, ?_, ?_⟩
  · rw [dedupFrom, if_pos h]
  · intro sec i hi hempty
    by_cases hs : normalize_name (get_name sec) = ""
    · rw [mergeStep_eq_of_empty thr (merged, names) sec hs]
      dsimp only
      rw [List.getD_eq_getElem?_getD, List.getD_eq_getElem?_getD,
        List.getElem?_append, if_pos hi]
    · rw [mergeStep_eq_of_ne thr (merged, names) sec hs]
      dsimp only
      by_cases hc : (thr ≤ (secScoreMax (normalize_name (get_name sec)) names : Int)
          ∧ 0 < secScoreMax (normalize_name (get_name sec)) names)
      · rw [if_pos hc]
        dsimp only
        obtain ⟨hc1, hc2⟩ := hc
        have hne : bestNameIdx (normalize_name (get_name sec)) names ≠ i := by
          intro e
          have hMne : secScoreMax (normalize_name (get_name sec)) names ≠ 0 := by omega
          have hsc := nameScore_at_bestIdx (normalize_name (get_name sec)) names hMne
          rw [e, hempty] at hsc
          simp [nameScore] at hsc
          omega
        rw [List.getD_eq_getElem?_getD, List.getD_eq_getElem?_getD,
          List.getElem?_set_ne hne, List.getD_eq_getElem?_getD]
      · rw [if_neg hc]
        dsimp only
        rw [List.getD_eq_getElem?_getD, List.getD_eq_getElem?_getD,
          List.getElem?_append, if_pos hi]

/-- Witness for C7 at a concrete input: a nameless record is appended by
the engine and kept by the deduplicator, and a named secondary record does
not touch the output position with the empty cached name. -/
theorem unmatchable_isolation_witness :
    mergeStep 85 ([[("Rating", Val.vstr "9")]], [""]) [("Phone", Val.vstr "5")] =
      ([[("Rating", Val.vstr "9")], [("Phone", Val.vstr "5")]], ["", ""]) ∧
    dedupFrom 85 [] [[("Phone", Val.vstr "5")], [("Name", Val.vstr "x")]] =
      [("Phone", Val.vstr "5")] :: dedupFrom 85 [] [[("Name", Val.vstr "x")]] ∧
    (mergeStep 85 ([[("Rating", Val.vstr "9")]], [""])
      [("Name", Val.vstr "abc")]).1.getD 0 [] = [("Rating", Val.vstr "9")] := by
  obtain ⟨h1, h2, h3⟩ := unmatchable_isolation 85 [[("Rating", Val.vstr "9")]] [""]
    [("Phone", Val.vstr "5")] (by decide) [] [[("Name", Val.vstr "x")]]
  exact ⟨h1, h2, h3 [("Name", Val.vstr "abc")] 0 (by decide) (by decide)⟩

theorem writable_eq_true (v : Val) (hnn : v ≠ Val.vnull) (hnb : pyStrip v.pyStr ≠ "") :
    writable v = true := by
  unfold writable
  rw [Bool.and_eq_true]
  constructor
  · simp [hnn]
  · simp [hnb]

/-- C2 (amended) — First-writer-wins field fill: for every key of the
secondary record (keys of a Python dict are distinct) whose value is
non-null and non-blank after trimming, the value is written into the target
record if and only if the target's current value for that key is absent or
*Python-falsy-or-blank* — absent, `None`, blank after trimming, **or a falsy
value such as the integer `0`** (`fillable`).  The falsy case is the
amendment: the code tests `not existing`, which is also true for `0`. -/
theorem fill_first_writer (tgt sec : Record) (k : String) (v : Val)
    (hnd : (sec.map Prod.fst).Nodup) (hv : rget sec k = some v)
    (hnn : v ≠ Val.vnull) (hnb : pyStrip v.pyStr ≠ "") :
    rget (fillRecord tgt sec) k =
      (if fillable (rget tgt k) = true then some v else rget tgt k) := by
  induction sec generalizing tgt with
  | nil => simp [rget] at hv
  | cons kv rest ih =>
    obtain ⟨k2, v2⟩ := kv
    have hstep : fillRecord tgt ((k2, v2) :: rest) =
        fillRecord (if writable v2 && fillable (rget tgt k2) then
          rset tgt k2 v2 else tgt) rest := by
      simp [fillRecord]
    rw [hstep]
    rw [List.map_cons] at hnd
    obtain ⟨hk1, hk2⟩ := List.nodup_cons.mp hnd
    by_cases hk : k2 = k
    · subst hk
      have hv2 : v2 = v := by
        rw [rget, if_pos rfl] at hv
        exact Option.some.injEq _ _ ▸ hv
      rw [hv2, writable_eq_true v hnn hnb, Bool.true_and]
      by_cases hf : fillable (rget tgt k2) = true
      · rw [if_pos hf, fillRecord_not_mem rest _ k2 hk1, rget_rset_self tgt k2 v,
          if_pos hf]
      · rw [if_neg hf, fillRecord_not_mem rest _ k2 hk1, if_neg hf]
    · have hv3 : rget rest k = some v := by
        rw [rget, if_neg hk] at hv
        exact hv
      by_cases hc : (writable v2 && fillable (rget tgt k2)) = true
      · rw [if_pos hc, ih _ hk2 hv3, rget_rset_ne tgt k k2 v2 hk]
      · rw [if_neg hc, ih _ hk2 hv3]

/-- Witness for C2 at a concrete input: a `None` slot is filled. -/
theorem fill_first_writer_witness :
    rget (fillRecord [("Rating", Val.vnull)] [("Rating", Val.vstr "4.5")]) "Rating" =
      (if fillable (rget [("Rating", Val.vnull)] "Rating") = true then
        some (Val.vstr "4.5") else rget [("Rating", Val.vnull)] "Rating") :=
  fill_first_writer [("Rating", Val.vnull)] [("Rating", Val.vstr "4.5")] "Rating"
    (Val.vstr "4.5") (by decide) (by decide) (by decide) (by decide)

/-- C2 counterexample (claim as stated): the engine overwrites an existing
value that is non-null and non-blank after trimming — the integer `0`
(`str(0).strip() = "0"`) — because `not existing` is true for falsy values,
contradicting "an existing non-blank value is never overwritten". -/
theorem fill_first_writer_counterexample :
    pyStrip (Val.vint 0).pyStr = "0" ∧ (Val.vint 0) ≠ Val.vnull ∧
    fuzzy_merge_records [[("Name", Val.vstr "Zen Spa"), ("Reviews", Val.vint 0)]]
        [[[("Name", Val.vstr "Zen Spa"), ("Reviews", Val.vstr "55")]]] 70 =
      [[("Name", Val.vstr "Zen Spa"), ("Reviews", Val.vstr "55")]] :=
  ⟨by decide, by decide, by decide⟩

/-- Evolution invariant of the running output: it never shrinks, and any
binding whose value is truthy and non-blank after trimming survives at the
same index. -/
def Preserve (a b : List Record) : Prop :=
  a.length ≤ b.length ∧
  ∀ (i : Nat) (k : String) (v : Val), i < a.length → rget (a.getD i []) k = some v →
    v.truthy = true → pyStrip v.pyStr ≠ "" → rget (b.getD i []) k = some v

theorem preserve_refl (a : List Record) : Preserve a a :=
  ⟨Nat.le_refl _, fun _ _ _ _ h _ _ => h⟩

theorem preserve_trans {a b c : List Record} (h1 : Preserve a b) (h2 : Preserve b c) :
    Preserve a c := by
  refine ⟨Nat.le_trans h1.1 h2.1, fun i k v hi hg ht hb => ?_⟩
  exact h2.2 i k v (Nat.lt_of_lt_of_le hi h1.1) (h1.2 i k v hi hg ht hb) ht hb

theorem preserve_append (a : List Record) (r : Record) : Preserve a (a ++ [r]) := by
  refine ⟨by simp, fun i k v hi hg _ _ => ?_⟩
  rw [List.getD_eq_getElem?_getD, List.getElem?_append, if_pos hi,
    ← List.getD_eq_getElem?_getD]
  exact hg

theorem preserve_set_fill (a : List Record) (n : Nat) (sec : Record) :
    Preserve a (a.set n (fillRecord (a.getD n []) sec)) := by
  refine ⟨by simp, fun i k v hi hg ht hb => ?_⟩
  by_cases hne : n = i
  · subst hne
    rw [List.getD_eq_getElem?_getD, List.getElem?_set_self (by omega),
      Option.getD_some]
    exact fillRecord_keep sec _ k v hg ht hb
  · rw [List.getD_eq_getElem?_getD, List.getElem?_set_ne hne, ← List.getD_eq_getElem?_getD]
    exact hg

theorem mergeStep_preserve (thr : Int) (st : List Record × List String) (sec : Record) :
    Preserve st.1 (mergeStep thr st sec).1 := by
  by_cases hs : normalize_name (get_name sec) = ""
  · rw [mergeStep_eq_of_empty thr st sec hs]
    exact preserve_append st.1 sec
  · rw [mergeStep_eq_of_ne thr st sec hs]
    by_cases hc : (thr ≤ (secScoreMax (normalize_name (get_name sec)) st.2 : Int)
        ∧ 0 < secScoreMax (normalize_name (get_name sec)) st.2)
    · rw [if_pos hc]
      exact preserve_set_fill st.1 _ sec
    · rw [if_neg hc]
      exact preserve_append st.1 sec

theorem foldl_mergeStep_preserve (thr : Int) (l : List Record) :
    ∀ (st : List Record × List String), Preserve st.1 ((l.foldl (mergeStep thr) st)).1 := by
  induction l with
  | nil => intro st; exact preserve_refl _
  | cons r rs ih =>
    intro st
    rw [List.foldl_cons]
    exact preserve_trans (mergeStep_preserve thr st r) (ih (mergeStep thr st r))

theorem foldl_lists_preserve (thr : Int) (ls : List (List Record)) :
    ∀ (st : List Record × List String),
      Preserve st.1 ((ls.foldl (fun st l => l.foldl (mergeStep thr) st) st)).1 := by
  induction ls with
  | nil => intro st; exact preserve_refl _
  | cons l ls ih =>
    intro st
    rw [List.foldl_cons]
    exact preserve_trans (foldl_mergeStep_preserve thr l st) (ih _)

/-- C1 (amended) — Losslessness of reconciliation: the output is never
shorter than the primary collection, and every field value of a primary
record that is truthy and non-blank after trimming is still present, under
the same key, in the output record at the same index.  (The original
claim's "every field value present in any input record appears in the
output" fails: first-writer-wins drops a secondary value that conflicts
with an existing non-blank value — see the counterexample.) -/
theorem reconcile_lossless (primary : List Record) (secs : List (List Record)) (thr : Int) :
    primary.length ≤ (fuzzy_merge_records primary secs thr).length ∧
    ∀ (i : Nat) (k : String) (v : Val), i < primary.length →
      rget (primary.getD i []) k = some v → v.truthy = true → pyStrip v.pyStr ≠ "" →
      rget ((fuzzy_merge_records primary secs thr).getD i []) k = some v := by
  have h := foldl_lists_preserve thr secs
    (primary, primary.map fun r => normalize_name (get_name r))
  exact ⟨h.1, h.2⟩

/-- Witness for C1 at a concrete input: the primary value `"4.2"` (truthy,
non-blank) survives the merge of a conflicting secondary record. -/
theorem reconcile_lossless_witness :
    rget ((fuzzy_merge_records [[("Name", Val.vstr "Zen Spa"), ("Rating", Val.vstr "4.2")]]
        [[[("Name", Val.vstr "Zen Spa"), ("Rating", Val.vstr "4.5")]]] 70).getD 0 [])
      "Rating" = some (Val.vstr "4.2") :=
  (reconcile_lossless [[("Name", Val.vstr "Zen Spa"), ("Rating", Val.vstr "4.2")]]
      [[[("Name", Val.vstr "Zen Spa"), ("Rating", Val.vstr "4.5")]]] 70).2
    0 "Rating" (Val.vstr "4.2") (by decide) (by decide) (by decide) (by decide)

/-- C1 counterexample (claim as stated): the secondary field value `"4.5"`
is present in an input record but appears in no record of the output —
first-writer-wins silently drops it in favour of the primary's `"4.2"`. -/
theorem reconcile_lossless_counterexample :
    rget [("Name", Val.vstr "Zen Spa"), ("Rating", Val.vstr "4.5")] "Rating" =
      some (Val.vstr "4.5") ∧
    fuzzy_merge_records [[("Name", Val.vstr "Zen Spa"), ("Rating", Val.vstr "4.2")]]
        [[[("Name", Val.vstr "Zen Spa"), ("Rating", Val.vstr "4.5")]]] 70 =
      [[("Name", Val.vstr "Zen Spa"), ("Rating", Val.vstr "4.2")]] ∧
    ((fuzzy_merge_records [[("Name", Val.vstr "Zen Spa"), ("Rating", Val.vstr "4.2")]]
        [[[("Name", Val.vstr "Zen Spa"), ("Rating", Val.vstr "4.5")]]] 70).all
      fun r => r.all fun kv => !(kv.2 == Val.vstr "4.5")) = true :=
  ⟨by decide, by decide, by decide⟩

theorem mergeStep_length_le (thr : Int) (st : List Record × List String) (sec : Record) :
    (mergeStep thr st sec).1.length ≤ st.1.length + 1 := by
  by_cases hs : normalize_name (get_name sec) = ""
  · rw [mergeStep_eq_of_empty thr st sec hs]
    simp
  · rw [mergeStep_eq_of_ne thr st sec hs]
    by_cases hc : (thr ≤ (secScoreMax (normalize_name (get_name sec)) st.2 : Int)
        ∧ 0 < secScoreMax (normalize_name (get_name sec)) st.2)
    · rw [if_pos hc]
      simp
    · rw [if_neg hc]
      simp

theorem foldl_mergeStep_length (thr : Int) (l : List Record) :
    ∀ (st : List Record × List String),
      ((l.foldl (mergeStep thr) st)).1.length ≤ st.1.length + l.length := by
  induction l with
  | nil => intro st; simp
  | cons r rs ih =>
    intro st
    rw [List.foldl_cons]
    have h1 := ih (mergeStep thr st r)
    have h2 := mergeStep_length_le thr st r
    simp only [List.length_cons]
    omega

theorem foldl_lists_length (thr : Int) (ls : List (List Record)) :
    ∀ (st : List Record × List String),
      ((ls.foldl (fun st l => l.foldl (mergeStep thr) st) st)).1.length ≤
        st.1.length + (ls.map List.length).sum := by
  induction ls with
  | nil => intro st; simp
  | cons l ls ih =>
    intro st
    rw [List.foldl_cons]
    have h1 := ih (l.foldl (mergeStep thr) st)
    have h2 := foldl_mergeStep_length thr l st
    simp only [List.map_cons, List.sum_cons]
    omega

/-- C10 — Output-size bound of reconciliation: the output never exceeds the
primary collection's length plus the total number of secondary records;
each secondary record either merges in place or appends one entry, never
both. -/
theorem reconcile_length_upper (primary : List Record) (secs : List (List Record))
    (thr : Int) :
    (fuzzy_merge_records primary secs thr).length ≤
      primary.length + (secs.map List.length).sum :=
  foldl_lists_length thr secs (primary, primary.map fun r => normalize_name (get_name r))

theorem mergeStepE_agrees (thr : Int) (st : List Record × List String) (sec : Record)
    (h : st.2.length = st.1.length) :
    mergeStepE thr st sec = some (mergeStep thr st sec) ∧
    (mergeStep thr st sec).2.length = (mergeStep thr st sec).1.length := by
  by_cases hs : normalize_name (get_name sec) = ""
  · rw [mergeStep_eq_of_empty thr st sec hs]
    constructor
    · rw [mergeStepE]
      simp [hs]
    · simp [h]
  · rw [mergeStep_eq_of_ne thr st sec hs]
    rw [mergeStepE]
    simp only [if_neg hs]
    rw [bestMatch_eq]
    by_cases hM : secScoreMax (normalize_name (get_name sec)) st.2 = 0
    · rw [if_pos hM]
      dsimp only
      rw [if_neg (by omega), if_neg (by omega)]
      exact ⟨rfl, by simp [h]⟩
    · rw [if_neg hM]
      dsimp only
      by_cases hthr : thr ≤ (secScoreMax (normalize_name (get_name sec)) st.2 : Int)
      · rw [if_pos ⟨hthr, Int.natCast_nonneg _⟩, if_pos ⟨hthr, by omega⟩]
        have hlt : bestNameIdx (normalize_name (get_name sec)) st.2 < st.1.length :=
          h ▸ bestNameIdx_lt _ _ hM
        have htn : ((bestNameIdx (normalize_name (get_name sec)) st.2 : Int)).toNat =
            bestNameIdx (normalize_name (get_name sec)) st.2 := Int.toNat_natCast _
        rw [htn]
        rw [dif_pos hlt]
        constructor
        · have hget : st.1.get ⟨bestNameIdx (normalize_name (get_name sec)) st.2, hlt⟩ =
              st.1.getD (bestNameIdx (normalize_name (get_name sec)) st.2) [] := by
            rw [List.getD_eq_getElem?_getD, List.getElem?_eq_getElem hlt]
            rfl
          rw [hget]
        · simp [h]
      · rw [if_neg (fun hc => hthr hc.1), if_neg (fun hc => hthr hc.1)]
        exact ⟨rfl, by simp [h]⟩

theorem foldlM_option {σ α : Type} (P : σ → Prop) (f : σ → α → Option σ) (g : σ → α → σ)
    (hfg : ∀ st a, P st → f st a = some (g st a) ∧ P (g st a)) :
    ∀ (l : List α) (st : σ), P st →
      l.foldlM f st = some (l.foldl g st) ∧ P (l.foldl g st) := by
  intro l
  induction l with
  | nil =>
    intro st h
    exact ⟨rfl, h⟩
  | cons a l ih =>
    intro st h
    obtain ⟨h1, h2⟩ := hfg st a h
    rw [List.foldl_cons]
    obtain ⟨h3, h4⟩ := ih (g st a) h2
    refine ⟨?_, h4⟩
    rw [List.foldlM_cons, h1]
    simpa using h3

theorem dedupFrom_length_le (thr : Int) (seen : List String) (rs : List Record) :
    (dedupFrom thr seen rs).length ≤ rs.length := by
  induction rs generalizing seen with
  | nil => simp [dedupFrom]
  | cons r rs ih =>
    rw [dedupFrom]
    split_ifs
    · simpa using ih seen
    · exact Nat.le_trans (ih seen) (Nat.le_succ _)
    · simpa using ih (seen ++ [normalize_name (get_name r)])

/-- C9 — Total error-free core: the engine variant that makes Python's only
partial operation (list indexing at `best_idx`) explicit never fails — on
every input it returns exactly the total model's result, because the
recorded best index is always within the output list; and the deduplicator
is total as well, returning a valid sublist-sized result on every input.
All other operations of both functions (`get`, `append`, string handling)
are modelled by total functions, mirroring the code's explicit handling of
missing names, null values, blank strings and empty collections. -/
theorem engine_total (primary : List Record) (secs : List (List Record)) (thr : Int)
    (records : List Record) (dedup_threshold : Int) :
    fuzzy_merge_recordsE primary secs thr = some (fuzzy_merge_records primary secs thr) ∧
    (deduplicate_by_name records dedup_threshold).length ≤ records.length := by
  constructor
  · have hInner : ∀ (l : List Record) (st : List Record × List String),
        st.2.length = st.1.length →
        l.foldlM (mergeStepE thr) st = some (l.foldl (mergeStep thr) st) ∧
        (l.foldl (mergeStep thr) st).2.length = (l.foldl (mergeStep thr) st).1.length :=
      foldlM_option (fun st => st.2.length = st.1.length) _ _
        (fun st a ha => mergeStepE_agrees thr st a ha)
    have hOuter := foldlM_option (fun st : List Record × List String =>
        st.2.length = st.1.length)
      (fun st sec_list => sec_list.foldlM (mergeStepE thr) st)
      (fun st sec_list => sec_list.foldl (mergeStep thr) st)
      (fun st l ha => hInner l st ha)
      secs (primary, primary.map fun r => normalize_name (get_name r)) (by simp)
    rw [fuzzy_merge_recordsE, fuzzy_merge_records]
    rw [hOuter.1]
    rfl
  · exact dedupFrom_length_le dedup_threshold [] records

end AiScraper
